import Mathlib

/-!
Verification of the build-graph core of the teleport site repository.

The repository's `_site/configure.js` declares build artifacts (tarballs) with
dependencies, input mounts and shell-command templates, and registers them in a
`Makefile` object provided by a `builder` module.  `configure.js` is embedded
below directly; the `builder` module itself is not part of the source tree, so
its operations (descriptor construction, graph compilation, emission) are
modelled from the specification, with each such definition marked
`Modelled from the spec:` in its doc comment.
-/

namespace Teleport

/-- Path of an artifact's cached tarball.  From the repository: the deploy task
of `configure.js` reads `.cache/site.tar`, `copyFromArchive` writes to
`builder.archiveFile(archive)`, and the README builds `.cache/site.tar`,
`.cache/current-source-sphinx.tar` and `.cache/site-inject.tar`; so the cache
path of archive `n` is `.cache/n.tar`. -/
def archiveFile (archive : String) : String :=
  ".cache/" ++ archive ++ ".tar"

/-- Modelled from the spec: the per-artifact staging directory (builder.js is
missing from the source tree).  Section 5 requires a staging directory uniquely
named per target, and the `clean` task of `configure.js` removes `build/*`, so
artifact `n` stages under `build/n`. -/
def stagingDir (archive : String) : String :=
  "build/" ++ archive

/-- The raw fetch directives accepted as mount values, with the literal
parameters each carries in `configure.js` (`tarFromZip {name, url}`,
`fileDownload {filename, url}`, `googleFonts url`, `localNpmPackage pkg`,
`gitCheckoutBranch branch`). -/
inductive Directive where
  | tarFromZip (name url : String)
  | fileDownload (filename url : String)
  | googleFonts (url : String)
  | localNpmPackage (pkg : String)
  | gitCheckoutBranch (branch : String)

/-- Modelled from the spec: the archive name the Mount Resolver synthesizes for
a raw fetch directive is derived from the directive's own identity (its
explicit name, filename, package, branch, or URL).  In `configure.js`,
`tarFromZip` and `fileDownload` carry that identity explicitly. -/
def Directive.synthName : Directive → String
  | .tarFromZip n _ => n
  | .fileDownload f _ => f
  | .googleFonts u => "google-fonts-" ++ u
  | .localNpmPackage p => "npm-" ++ p
  | .gitCheckoutBranch b => "git-" ++ b

/-- Modelled from the spec: the single opaque fetch command of a directive; the
core does not interpret it (spec section 6, fetch directives are opaque). -/
def Directive.fetchCommand : Directive → String
  | .tarFromZip n u => "fetch-zip-to-tar " ++ u ++ " " ++ archiveFile n
  | .fileDownload f u => "wget " ++ u ++ " -O " ++ f
  | .googleFonts u => "fetch-google-fonts " ++ u
  | .localNpmPackage p => "cp -R node_modules/" ++ p ++ " ."
  | .gitCheckoutBranch b => "git checkout " ++ b

/-- One graph node as seen by the Graph Compiler: file dependencies, optional
result sub-directory, mounts (staging sub-path to archive name of the mounted
node) and the command template evaluated at the staging path (spec section 3,
Artifact Descriptor). -/
structure NodeSpec where
  deps : List String
  resultDir : Option String
  mounts : List (String × String)
  getCommands : String → List String

/-- A descriptor graph: association list from archive name to its node. -/
abbrev Graph := List (String × NodeSpec)

/-- Association-list lookup of a node by archive name. -/
def lookupSpec : Graph → String → Option NodeSpec
  | [], _ => none
  | (m, s) :: t, n => if m = n then some s else lookupSpec t n

/-- Lexicographic comparison of character lists by code point, used as the
stable order on staging sub-path keys. -/
def charListLeB : List Char → List Char → Bool
  | [], _ => true
  | _ :: _, [] => false
  | a :: as, b :: bs =>
    if a.toNat < b.toNat then true
    else if b.toNat < a.toNat then false
    else charListLeB as bs

/-- Lexicographic order on strings by code point. -/
def strLe (a b : String) : Prop := charListLeB a.data b.data = true

instance : DecidableRel strLe := fun a b =>
  inferInstanceAs (Decidable (charListLeB a.data b.data = true))

/-- Ordering on mount entries by staging sub-path key. -/
def mountLE (a b : String × String) : Prop := strLe a.1 b.1

instance : DecidableRel mountLE := fun a b => inferInstanceAs (Decidable (strLe a.1 b.1))

/-- Strict ordering on mount entries by staging sub-path key. -/
def mountLT (a b : String × String) : Prop := mountLE a b ∧ ¬ mountLE b a

instance : IsAntisymm (String × String) mountLT :=
  ⟨fun _ _ h1 h2 => absurd h1.1 h2.2⟩

instance : IsTotal (String × String) mountLE := by
  constructor
  intro a b
  show strLe a.1 b.1 ∨ strLe b.1 a.1
  unfold strLe
  generalize a.1.data = xs
  generalize b.1.data = ys
  induction xs generalizing ys with
  | nil => left; rfl
  | cons x as ih =>
    cases ys with
    | nil => right; rfl
    | cons y bs =>
      simp only [charListLeB]
      rcases Nat.lt_trichotomy x.toNat y.toNat with h | h | h
      · left; simp [h]
      · have h1 : ¬ x.toNat < y.toNat := by omega
        have h2 : ¬ y.toNat < x.toNat := by omega
        simpa [h1, h2] using ih bs
      · right
        have h1 : ¬ x.toNat < y.toNat := by omega
        simp [h, h1]

instance : IsTrans (String × String) mountLE := by
  constructor
  have key : ∀ xs ys zs, charListLeB xs ys = true → charListLeB ys zs = true →
      charListLeB xs zs = true := by
    intro xs
    induction xs with
    | nil => intro ys zs _ _; rfl
    | cons x as ih =>
      intro ys zs h1 h2
      cases ys with
      | nil => simp [charListLeB] at h1
      | cons y bs =>
        cases zs with
        | nil => simp [charListLeB] at h2
        | cons z cs =>
          simp only [charListLeB] at h1 h2 ⊢
          by_cases hxy : x.toNat < y.toNat
          · by_cases hyz : y.toNat < z.toNat
            · simp [Nat.lt_trans hxy hyz]
            · by_cases hzy : z.toNat < y.toNat
              · rw [if_neg hyz, if_pos hzy] at h2; simp at h2
              · have hxz : x.toNat < z.toNat := by omega
                simp [hxz]
          · by_cases hyx : y.toNat < x.toNat
            · rw [if_neg hxy, if_pos hyx] at h1; simp at h1
            · rw [if_neg hxy, if_neg hyx] at h1
              by_cases hyz : y.toNat < z.toNat
              · have hxz : x.toNat < z.toNat := by omega
                simp [hxz]
              · by_cases hzy : z.toNat < y.toNat
                · rw [if_neg hyz, if_pos hzy] at h2; simp at h2
                · rw [if_neg hyz, if_neg hzy] at h2
                  have hxz : ¬ x.toNat < z.toNat := by omega
                  have hzx : ¬ z.toNat < x.toNat := by omega
                  rw [if_neg hxz, if_neg hzx]
                  exact ih bs cs h1 h2
  intro a b c hab hbc
  exact key a.1.data b.1.data c.1.data hab hbc

/-- Modelled from the spec: traversal order over a mounts mapping is the stable
lexicographic order on sub-path keys (spec section 4.3, determinism tie-break).
-/
def sortMounts (ms : List (String × String)) : List (String × String) :=
  List.insertionSort mountLE ms

/-- The archive names a node depends on through its mounts, in stable order. -/
def specChildren (s : NodeSpec) : List String :=
  (sortMounts s.mounts).map Prod.snd

/-- Errors of the Graph Compiler (spec section 7). -/
inductive CompileError where
  | cyclicDependency (cycle : List String)
  | missingNode (archive : String)
  | outOfFuel
deriving DecidableEq

/-- Modelled from the spec: the depth-first traversal of the Graph Compiler
(spec section 4.3).  `childF` maps an archive name to the stable-ordered names
of its mounted nodes, `stack` is the in-progress ancestor path (most recent
first), `todo` the names still to visit at this level, `out` the completed
names in emission order.  On first visit of a name its children are visited
before the name is appended; an already-completed name is skipped; a name on
the stack is a cycle, reported as the full name sequence from the earlier
occurrence back to itself.  `fuel` bounds the descent depth; `compile` supplies
more fuel than any descent can use, so `outOfFuel` is unreachable. -/
def visitList (childF : String → Option (List String)) :
    Nat → List String → List String → List String → Except CompileError (List String)
  | fuel, stack, n :: rest, out =>
    if n ∈ out then
      visitList childF fuel stack rest out
    else if n ∈ stack then
      .error (.cyclicDependency (n :: ((stack.takeWhile (fun m => m ≠ n)).reverse ++ [n])))
    else
      match childF n with
      | none => .error (.missingNode n)
      | some cs =>
        match fuel with
        | 0 => .error .outOfFuel
        | fuel2 + 1 =>
          match visitList childF fuel2 (n :: stack) cs out with
          | .error e => .error e
          | .ok out2 => visitList childF (fuel2 + 1) stack rest (out2 ++ [n])
  | _, _, [], out => .ok out
termination_by fuel _ todo _ => (fuel, todo.length)

/-- The children function a graph induces: stable-ordered mount names. -/
def childOf (g : Graph) (n : String) : Option (List String) :=
  (lookupSpec g n).map specChildren

/-- Modelled from the spec: the Graph Compiler (spec section 4.3) — depth-first
traversal from the roots producing the flat, deduplicated node order in which
children precede parents. -/
def compile (g : Graph) (roots : List String) : Except CompileError (List String) :=
  visitList (childOf g) (g.length + 1) [] roots []

/-- One target stanza of the Build Descriptor: output path, prerequisite paths
and recipe lines (spec section 3, Build Descriptor). -/
structure Target where
  output : String
  prereqs : List String
  recipe : List String
deriving DecidableEq

/-- Modelled from the spec: the staging command of one mount — extract the
mounted artifact's cached archive into the named sub-path of the staging
directory (spec section 4.2). -/
def mountCmd (archive : String) (m : String × String) : String :=
  "tar xf " ++ archiveFile m.2 ++ " -C " ++ stagingDir archive ++ m.1

/-- Modelled from the spec: package the result sub-directory (or the whole
staging directory when unset) into the node's output archive (spec section
4.4, recipe step 4). -/
def packageCmd (archive : String) (resultDir : Option String) : String :=
  "tar cf " ++ archiveFile archive ++ " -C " ++ stagingDir archive ++ resultDir.getD "" ++ " ."

/-- Modelled from the spec: the five-step recipe of an artifact target — fresh
staging directory, one staging command per mount in stable order, the node's
own commands at the staging path, packaging, staging removal (spec section
4.4). -/
def stagingRecipe (archive : String) (s : NodeSpec) : List String :=
  ("rm -rf " ++ stagingDir archive) :: ("mkdir -p " ++ stagingDir archive) ::
    ((sortMounts s.mounts).map (mountCmd archive)
      ++ s.getCommands (stagingDir archive)
      ++ [packageCmd archive s.resultDir, "rm -rf " ++ stagingDir archive])

/-- Modelled from the spec: the Build Descriptor Emitter's target for one
compiled node — output path derived from the archive name, prerequisites the
file dependencies followed by the direct mount-derived archive paths in stable
order (spec sections 3 and 4.4). -/
def emitNode (archive : String) (s : NodeSpec) : Target :=
  { output := archiveFile archive,
    prereqs := s.deps ++ (sortMounts s.mounts).map (fun m => archiveFile m.2),
    recipe := stagingRecipe archive s }

/-- Emission of the whole compiled node order as a target sequence. -/
def emitDoc (g : Graph) (order : List String) : List Target :=
  order.filterMap (fun n => (lookupSpec g n).map (emitNode n))

/-- Compilation straight to the emitted target sequence. -/
def compileDoc (g : Graph) (roots : List String) : Except CompileError (List Target) :=
  (compile g roots).map (emitDoc g)

/-- Text of one target stanza (spec section 6). -/
def renderTarget (t : Target) : String :=
  t.output ++ ": " ++ " ".intercalate t.prereqs ++ "\n"
    ++ String.join (t.recipe.map (fun c => "\t" ++ c ++ "\n"))

/-- Text of a target sequence. -/
def renderDoc (ts : List Target) : String :=
  String.join (ts.map renderTarget)

/-- Compilation straight to the Build Descriptor text. -/
def compileRender (g : Graph) (roots : List String) : Except CompileError String :=
  (compile g roots).map (fun order => renderDoc (emitDoc g order))

/-- Target of a plain `builder.Rule` of `configure.js`: either a cached archive
(the `archive:` form) or a literal file path (the `filename:` form). -/
inductive RuleTarget where
  | archive (name : String)
  | filename (p : String)
deriving DecidableEq

/-- A plain rule as constructed by `new builder.Rule({...})` in `configure.js`:
literal dependencies and literal commands. -/
structure Rule where
  target : RuleTarget
  deps : List String
  commands : List String
deriving DecidableEq

/-- Output path of a plain rule. -/
def Rule.outputPath (r : Rule) : String :=
  match r.target with
  | .archive n => archiveFile n
  | .filename p => p

/-- Modelled from the spec: a plain rule becomes a target stanza with exactly
its literal dependency list as prerequisites and its literal command list as
recipe (spec section 6, target stanza); no staging steps are added. -/
def emitRule (r : Rule) : Target :=
  { output := r.outputPath, prereqs := r.deps, recipe := r.commands }

/-- The rule built by `copyFromArchive(name)` in `configure.js` lines 10-19:
`deps` is the checked-in tarball `_site/archive/<name>.tar` and the single
command copies it to `builder.archiveFile("archive-<name>")`. -/
def copyFromArchive (name : String) : Rule :=
  { target := .archive ("archive-" ++ name),
    deps := ["_site/archive/" ++ name ++ ".tar"],
    commands :=
      ["cp -R _site/archive/" ++ name ++ ".tar " ++ archiveFile ("archive-" ++ name)] }

/-- The `node_modules` rule of `configure.js` lines 120-124. -/
def nodeModulesRule : Rule :=
  { target := .filename "node_modules",
    deps := ["package.json"],
    commands := ["npm install", "touch node_modules"] }

/-- From `configure.js` line 8. -/
def bin : String := "node_modules/.bin"

/-- From `configure.js` line 111. -/
def deployTmp : String := "dist"

/-- The command string of the `deploy` task, exactly as `configure.js` lines
113-116 build it.  In the JavaScript source the separator is written
as the escape `\\n`, so the string holds the two characters backslash and
`n` between command lines. -/
def deployCommands : String :=
  "rm -rf " ++ deployTmp ++ "\\nmkdir -p " ++ deployTmp
    ++ "\\ntar xf .cache/site.tar -C " ++ deployTmp
    ++ "\\n" ++ bin ++ "/divshot push production"

/-- Splitter for task command strings: cuts at each two-character
backslash-n separator, the separator `configure.js` writes between task
command lines.  `acc` holds the current line in reverse. -/
def splitCmds : List Char → List Char → List (List Char)
  | acc, '\\' :: 'n' :: cs => acc.reverse :: splitCmds [] cs
  | acc, c :: cs => splitCmds (c :: acc) cs
  | acc, [] => [acc.reverse]

/-- Recipe lines of a task command string. -/
def taskLines (cmds : String) : List String :=
  (splitCmds [] cmds.data).map String.mk

/-- Boolean prefix test on character lists. -/
def listPrefixB : List Char → List Char → Bool
  | [], _ => true
  | _ :: _, [] => false
  | a :: as, b :: bs => if a = b then listPrefixB as bs else false

/-- Boolean infix test on character lists: does the first list occur
contiguously inside the second. -/
def listInfixB : List Char → List Char → Bool
  | sub, [] => sub.isEmpty
  | sub, c :: t => listPrefixB sub (c :: t) || listInfixB sub t

/-- Boolean substring test: does `sub` occur contiguously inside `s`. -/
def containsStrB (s sub : String) : Bool :=
  listInfixB sub.data s.data

/-- Archive name built by `inject` in `configure.js` line 96:
`src.archive + "-inject"`. -/
def injectArchive (srcArchive : String) : String :=
  srcArchive ++ "-inject"

/-- Archive name of the `site` artifact (`configure.js` line 184). -/
def siteArchive : String := "site"

/-- One registered entry of the Makefile model: a plain rule or an artifact
root known by its archive name. -/
inductive RuleEntry where
  | plain (r : Rule)
  | artifact (archive : String)
deriving DecidableEq

/-- Output path of a registered rule entry. -/
def RuleEntry.outputPath : RuleEntry → String
  | .plain r => r.outputPath
  | .artifact a => archiveFile a

/-- The mutable Makefile object of the builder: registered tasks and rules in
registration order. -/
structure Makefile where
  tasks : List (String × String)
  rules : List RuleEntry
deriving DecidableEq

/-- Registration of a convenience task (`makefile.addTask`). -/
def Makefile.addTask (m : Makefile) (name cmds : String) : Makefile :=
  { m with tasks := m.tasks ++ [(name, cmds)] }

/-- Registration of a rule (`makefile.addRule`). -/
def Makefile.addRule (m : Makefile) (e : RuleEntry) : Makefile :=
  { m with rules := m.rules ++ [e] }

/-- Modelled from the spec: a phony task stanza has no prerequisite tracking
(spec section 6), so its emitted target carries an empty prerequisite list. -/
def emitTask (t : String × String) : Target :=
  { output := t.1, prereqs := [], recipe := taskLines t.2 }

/-- The registration sequence `configure.js` performs on its Makefile (lines
110-256): the `deploy` and `clean` tasks, the `node_modules` rule, the `site`
artifact, and last the analytics-injected `site-inject` artifact. -/
def configureMakefile : Makefile :=
  ((((({ tasks := [], rules := [] } : Makefile).addTask
    "deploy" deployCommands).addTask
    "clean" "rm -rf build/*").addRule
    (.plain nodeModulesRule)).addRule
    (.artifact siteArchive)).addRule
    (.artifact (injectArchive siteArchive))

/-- Modelled from the spec: path normalization applied to mount keys before
collision checking (spec section 4.1) — empty segments collapse and the
leading slash is restored. -/
def normalizePath (p : String) : String :=
  "/" ++ "/".intercalate ((p.splitOn "/").filter (fun s => s ≠ ""))

/-- Raw input of `defineArtifact` (spec sections 4.1 and 6); mount values are
referenced by archive name. -/
structure ArtifactConfig where
  archiveName : String
  fileDependencies : List String
  mounts : List (String × String)
  resultDir : Option String
  commandTemplate : Option (String → List String)

/-- A validated, immutable Artifact Descriptor (spec section 3). -/
structure Descriptor where
  archiveName : String
  fileDependencies : List String
  mounts : List (String × String)
  resultDir : Option String
  commandTemplate : String → List String

/-- Definition-time error of `defineArtifact` (spec section 7). -/
inductive DefineError where
  | invalidConfig (reason : String)

/-- Modelled from the spec: the validating factory `defineArtifact` (spec
section 4.1; the builder's descriptor constructor is not under the source
tree).  It fails with `InvalidConfig` on an empty archive name, on mount keys
that collide after path normalization, or on an absent command template, and
otherwise returns the descriptor value. -/
def defineArtifact (c : ArtifactConfig) : Except DefineError Descriptor :=
  if c.archiveName = "" then .error (.invalidConfig "empty archiveName")
  else if (c.mounts.map (fun m => normalizePath m.1)).Nodup then
    match c.commandTemplate with
    | none => .error (.invalidConfig "missing commandTemplate")
    | some f =>
      .ok { archiveName := c.archiveName, fileDependencies := c.fileDependencies,
            mounts := c.mounts, resultDir := c.resultDir, commandTemplate := f }
  else .error (.invalidConfig "colliding mount paths")

/-- One step of the graph-definition program: constructing a descriptor, or
registering a task or rule into the shared Makefile. -/
inductive BuildOp where
  | defineArt (c : ArtifactConfig)
  | addTask (name cmds : String)
  | addRule (e : RuleEntry)

/-- Modelled from the spec: effect of one step on the shared Makefile —
descriptor construction has no observable side effect (spec section 4.1), only
explicit registration extends the Makefile. -/
def runOp (m : Makefile) : BuildOp → Makefile
  | .defineArt _ => m
  | .addTask n c => m.addTask n c
  | .addRule e => m.addRule e

/-- Effect of a step sequence on the shared Makefile. -/
def runOps (m : Makefile) (ops : List BuildOp) : Makefile :=
  ops.foldl runOp m

/-- Modelled from the spec: the Mount Resolver's conversion of a raw fetch
directive into an ordinary zero-dependency artifact node (spec section 4.2). -/
def resolveDirective (d : Directive) : NodeSpec :=
  { deps := [], resultDir := none, mounts := [], getCommands := fun _ => [d.fetchCommand] }

/-- Graph entry synthesized for a fetch directive, added to the descriptor
graph before the Graph Compiler runs. -/
def directiveEntry (d : Directive) : String × NodeSpec :=
  (d.synthName, resolveDirective d)

/-- Mount edge relation induced by a children function. -/
def edgeF (childF : String → Option (List String)) (a b : String) : Prop :=
  ∃ cs, childF a = some cs ∧ b ∈ cs

/-- Mount edge relation of a graph. -/
def gEdge (g : Graph) : String → String → Prop :=
  edgeF (childOf g)

/-- Acyclicity of a children function: no name reaches itself through one or
more mount edges. -/
def AcyclicF (childF : String → Option (List String)) : Prop :=
  ∀ n, ¬ Relation.TransGen (edgeF childF) n n

/-- Closure of a children function: every mounted name has a node. -/
def ClosedF (childF : String → Option (List String)) : Prop :=
  ∀ n cs, childF n = some cs → ∀ c ∈ cs, (childF c).isSome

/-- A name sequence is dependency-ordered when every node's mounted names
appear strictly before the node. -/
def GoodOrder (childF : String → Option (List String)) (l : List String) : Prop :=
  ∀ pre n suf, l = pre ++ n :: suf → ∀ cs, childF n = some cs → ∀ c ∈ cs, c ∈ pre

/-- The `leaf` descriptor of the end-to-end example of spec section 8. -/
def leafSpec : NodeSpec :=
  { deps := [], resultDir := none, mounts := [],
    getCommands := fun p => ["echo hi > " ++ p ++ "/f.txt"] }

/-- The `root` descriptor of the end-to-end example of spec section 8. -/
def rootSpec : NodeSpec :=
  { deps := [], resultDir := none, mounts := [("/x", "leaf")],
    getCommands := fun p => ["cat " ++ p ++ "/x/f.txt"] }

/-- The two-descriptor example graph of spec section 8. -/
def exGraph : Graph := [("leaf", leafSpec), ("root", rootSpec)]

/-- A shared leaf descriptor mounted twice (spec section 8, dedup example). -/
def bSpec : NodeSpec :=
  { deps := [], resultDir := none, mounts := [], getCommands := fun _ => ["make-b"] }

/-- First descriptor mounting the shared leaf. -/
def aSpec : NodeSpec :=
  { deps := [], resultDir := none, mounts := [("/b", "B")], getCommands := fun _ => ["make-a"] }

/-- Second descriptor mounting the shared leaf. -/
def cSpec : NodeSpec :=
  { deps := [], resultDir := none, mounts := [("/b", "B")], getCommands := fun _ => ["make-c"] }

/-- Graph in which `B` is mounted by both `A` and `C`. -/
def abcGraph : Graph := [("A", aSpec), ("B", bSpec), ("C", cSpec)]

/-- Graph with one descriptor mounting itself. -/
def selfGraph : Graph :=
  [("X", { deps := [], resultDir := none, mounts := [("/x", "X")], getCommands := fun _ => [] })]

/-- A descriptor with a file dependency and no mounts. -/
def fdSpec : NodeSpec :=
  { deps := ["package.json"], resultDir := none, mounts := [], getCommands := fun _ => ["npm install"] }

/-- Graph with a single node carrying a file dependency. -/
def fdGraph : Graph := [("fd", fdSpec)]

/-- A descriptor whose mounts mapping is written in one key order. -/
def twoMountsA : NodeSpec :=
  { deps := [], resultDir := none, mounts := [("/a", "a"), ("/b", "b")], getCommands := fun _ => [] }

/-- The same mounts mapping written in the other key order. -/
def twoMountsB : NodeSpec :=
  { deps := [], resultDir := none, mounts := [("/b", "b"), ("/a", "a")], getCommands := fun _ => [] }

/-- A dependency-free helper descriptor. -/
def plainLeaf : NodeSpec :=
  { deps := [], resultDir := none, mounts := [], getCommands := fun _ => [] }

/-- Example graph whose root lists its mounts in one order. -/
def permGraphA : Graph := [("r", twoMountsA), ("a", plainLeaf), ("b", plainLeaf)]

/-- The identical descriptor graph with the root's mounts listed in the other
order. -/
def permGraphB : Graph := [("r", twoMountsB), ("a", plainLeaf), ("b", plainLeaf)]

/-- Two graphs describe the identical descriptor input when they list the same
nodes in the same order and each node differs at most in the enumeration order
of its mounts mapping (whose sub-path keys are unique: a mapping has no
duplicate keys). -/
def SameMountsUpToPerm (g g2 : Graph) : Prop :=
  List.Forall₂
    (fun a b => a.1 = b.1 ∧ a.2.deps = b.2.deps ∧ a.2.resultDir = b.2.resultDir ∧
      a.2.getCommands = b.2.getCommands ∧ List.Perm a.2.mounts b.2.mounts ∧
      (a.2.mounts.map Prod.fst).Nodup)
    g g2

theorem charListLeB_antisymm :
    ∀ xs ys, charListLeB xs ys = true → charListLeB ys xs = true → xs = ys := by
  intro xs
  induction xs with
  | nil =>
    intro ys h1 h2
    cases ys with
    | nil => rfl
    | cons y bs => simp [charListLeB] at h2
  | cons x as ih =>
    intro ys h1 h2
    cases ys with
    | nil => simp [charListLeB] at h1
    | cons y bs =>
      simp only [charListLeB] at h1 h2
      by_cases hxy : x.toNat < y.toNat
      · rw [if_neg (Nat.lt_asymm hxy), if_pos hxy] at h2
        simp at h2
      · by_cases hyx : y.toNat < x.toNat
        · rw [if_neg hxy, if_pos hyx] at h1
          simp at h1
        · rw [if_neg hxy, if_neg hyx] at h1
          rw [if_neg hyx, if_neg hxy] at h2
          have hc : x = y := by
            have hv : x.val = y.val := by
              apply UInt32.ext
              have : x.toNat = y.toNat := by omega
              simpa [Char.toNat] using this
            exact Char.ext hv
          rw [hc, ih bs h1 h2]

theorem strLe_antisymm {a b : String} (h1 : strLe a b) (h2 : strLe b a) : a = b :=
  String.ext (charListLeB_antisymm a.data b.data h1 h2)

theorem pairwise_fst_ne_of_nodup {l : List (String × String)}
    (h : (l.map Prod.fst).Nodup) : l.Pairwise (fun a b => a.1 ≠ b.1) := by
  rw [List.Nodup, List.pairwise_map] at h
  exact h

theorem sorted_mountLT_of_sorted_nodup {l : List (String × String)}
    (hs : List.Sorted mountLE l) (hn : (l.map Prod.fst).Nodup) :
    List.Sorted mountLT l := by
  have hne := pairwise_fst_ne_of_nodup hn
  refine (hs.and hne).imp ?_
  rintro a b ⟨hle, hab⟩
  refine ⟨hle, fun hge => hab (strLe_antisymm hle hge)⟩

theorem sortMounts_perm (l : List (String × String)) : List.Perm (sortMounts l) l :=
  List.perm_insertionSort mountLE l

theorem mem_sortMounts {a : String × String} {l : List (String × String)} :
    a ∈ sortMounts l ↔ a ∈ l :=
  (sortMounts_perm l).mem_iff

theorem sortMounts_eq_of_perm {l1 l2 : List (String × String)}
    (hp : List.Perm l1 l2) (hn : (l1.map Prod.fst).Nodup) :
    sortMounts l1 = sortMounts l2 := by
  have hperm : List.Perm (sortMounts l1) (sortMounts l2) :=
    ((sortMounts_perm l1).trans hp).trans (sortMounts_perm l2).symm
  have hn2 : (l2.map Prod.fst).Nodup := ((hp.map Prod.fst).nodup_iff).mp hn
  have hs1 : List.Sorted mountLT (sortMounts l1) := by
    refine sorted_mountLT_of_sorted_nodup (List.sorted_insertionSort mountLE l1) ?_
    exact (((sortMounts_perm l1).map Prod.fst).nodup_iff).mpr hn
  have hs2 : List.Sorted mountLT (sortMounts l2) := by
    refine sorted_mountLT_of_sorted_nodup (List.sorted_insertionSort mountLE l2) ?_
    exact (((sortMounts_perm l2).map Prod.fst).nodup_iff).mpr hn2
  exact List.eq_of_perm_of_sorted hperm hs1 hs2

theorem visitList_skip (childF : String → Option (List String)) (fuel : Nat)
    (stack rest out : List String) (n : String) (h : n ∈ out) :
    visitList childF fuel stack (n :: rest) out = visitList childF fuel stack rest out := by
  conv_lhs => rw [visitList]
  rw [if_pos h]

theorem visitList_ok_extends (childF : String → Option (List String)) :
    ∀ fuel stack todo out, ∀ out2,
      visitList childF fuel stack todo out = .ok out2 → out <+: out2 := by
  intro fuel stack todo out
  induction fuel, stack, todo, out using visitList.induct childF with
  | case1 fuel stack n rest out h1 ih =>
    intro out2 h
    rw [visitList] at h
    simp only [if_pos h1] at h
    exact ih out2 h
  | case2 fuel stack n rest out h1 h2 =>
    intro out2 h
    rw [visitList] at h
    simp [h1, h2] at h
  | case3 fuel stack n rest out h1 h2 h3 =>
    intro out2 h
    rw [visitList] at h
    simp [h1, h2, h3] at h
  | case4 stack n rest out h1 h2 cs h3 =>
    intro out2 h
    rw [visitList] at h
    simp [h1, h2, h3] at h
  | case5 stack n rest out h1 h2 cs h3 fuel2 e herr ih =>
    intro out2 h
    rw [visitList] at h
    simp [h1, h2, h3, herr] at h
  | case6 stack n rest out h1 h2 cs h3 fuel2 mid hok ih1 ih2 =>
    intro out2 h
    rw [visitList] at h
    simp only [if_neg h1, if_neg h2, h3, hok] at h
    have ha : out <+: mid := ih1 mid hok
    have hb : (mid ++ [n]) <+: out2 := ih2 out2 h
    exact ha.trans ((List.prefix_append mid [n]).trans hb)
  | case7 fuel stack out =>
    intro out2 h
    rw [visitList] at h
    simp only [Except.ok.injEq] at h
    rw [h]

theorem visitList_ok_todo_mem (childF : String → Option (List String)) :
    ∀ fuel stack todo out, ∀ out2,
      visitList childF fuel stack todo out = .ok out2 → ∀ m ∈ todo, m ∈ out2 := by
  intro fuel stack todo out
  induction fuel, stack, todo, out using visitList.induct childF with
  | case1 fuel stack n rest out h1 ih =>
    intro out2 h m hm
    rw [visitList] at h
    simp only [if_pos h1] at h
    rcases List.mem_cons.mp hm with rfl | hm2
    · exact ((visitList_ok_extends childF fuel stack rest out out2 h).subset) h1
    · exact ih out2 h m hm2
  | case2 fuel stack n rest out h1 h2 =>
    intro out2 h
    rw [visitList] at h
    simp [h1, h2] at h
  | case3 fuel stack n rest out h1 h2 h3 =>
    intro out2 h
    rw [visitList] at h
    simp [h1, h2, h3] at h
  | case4 stack n rest out h1 h2 cs h3 =>
    intro out2 h
    rw [visitList] at h
    simp [h1, h2, h3] at h
  | case5 stack n rest out h1 h2 cs h3 fuel2 e herr ih =>
    intro out2 h
    rw [visitList] at h
    simp [h1, h2, h3, herr] at h
  | case6 stack n rest out h1 h2 cs h3 fuel2 mid hok ih1 ih2 =>
    intro out2 h m hm
    rw [visitList] at h
    simp only [if_neg h1, if_neg h2, h3, hok] at h
    have hpre : (mid ++ [n]) <+: out2 :=
      visitList_ok_extends childF (fuel2 + 1) stack rest (mid ++ [n]) out2 h
    rcases List.mem_cons.mp hm with rfl | hm2
    · exact hpre.subset (by simp)
    · exact ih2 out2 h m hm2
  | case7 fuel stack out =>
    intro out2 h m hm
    simp at hm

theorem visitList_ok_stack_disjoint (childF : String → Option (List String)) :
    ∀ fuel stack todo out, ∀ out2,
      visitList childF fuel stack todo out = .ok out2 →
      ∀ m ∈ stack, m ∉ out → m ∉ out2 := by
  intro fuel stack todo out
  induction fuel, stack, todo, out using visitList.induct childF with
  | case1 fuel stack n rest out h1 ih =>
    intro out2 h
    rw [visitList] at h
    simp only [if_pos h1] at h
    exact ih out2 h
  | case2 fuel stack n rest out h1 h2 =>
    intro out2 h
    rw [visitList] at h
    simp [h1, h2] at h
  | case3 fuel stack n rest out h1 h2 h3 =>
    intro out2 h
    rw [visitList] at h
    simp [h1, h2, h3] at h
  | case4 stack n rest out h1 h2 cs h3 =>
    intro out2 h
    rw [visitList] at h
    simp [h1, h2, h3] at h
  | case5 stack n rest out h1 h2 cs h3 fuel2 e herr ih =>
    intro out2 h
    rw [visitList] at h
    simp [h1, h2, h3, herr] at h
  | case6 stack n rest out h1 h2 cs h3 fuel2 mid hok ih1 ih2 =>
    intro out2 h m hm hmo
    rw [visitList] at h
    simp only [if_neg h1, if_neg h2, h3, hok] at h
    have hmid : m ∉ mid := ih1 mid hok m (List.mem_cons_of_mem n hm) hmo
    have hmn : m ≠ n := fun he => h2 (he ▸ hm)
    have hout3 : m ∉ mid ++ [n] := by
      intro hc
      rcases List.mem_append.mp hc with hc1 | hc2
      · exact hmid hc1
      · exact hmn (List.mem_singleton.mp hc2)
    exact ih2 out2 h m hm hout3
  | case7 fuel stack out =>
    intro out2 h m hm hmo
    rw [visitList] at h
    simp only [Except.ok.injEq] at h
    rw [← h]
    exact hmo

theorem visitList_ok_nodup (childF : String → Option (List String)) :
    ∀ fuel stack todo out, ∀ out2,
      visitList childF fuel stack todo out = .ok out2 → out.Nodup → out2.Nodup := by
  intro fuel stack todo out
  induction fuel, stack, todo, out using visitList.induct childF with
  | case1 fuel stack n rest out h1 ih =>
    intro out2 h
    rw [visitList] at h
    simp only [if_pos h1] at h
    exact ih out2 h
  | case2 fuel stack n rest out h1 h2 =>
    intro out2 h
    rw [visitList] at h
    simp [h1, h2] at h
  | case3 fuel stack n rest out h1 h2 h3 =>
    intro out2 h
    rw [visitList] at h
    simp [h1, h2, h3] at h
  | case4 stack n rest out h1 h2 cs h3 =>
    intro out2 h
    rw [visitList] at h
    simp [h1, h2, h3] at h
  | case5 stack n rest out h1 h2 cs h3 fuel2 e herr ih =>
    intro out2 h
    rw [visitList] at h
    simp [h1, h2, h3, herr] at h
  | case6 stack n rest out h1 h2 cs h3 fuel2 mid hok ih1 ih2 =>
    intro out2 h hnd
    rw [visitList] at h
    simp only [if_neg h1, if_neg h2, h3, hok] at h
    have hmidnd : mid.Nodup := ih1 mid hok hnd
    have hn : n ∉ mid :=
      visitList_ok_stack_disjoint childF fuel2 (n :: stack) cs out mid hok n
        (List.mem_cons_self n stack) h1
    have : (mid ++ [n]).Nodup := by
      simp [List.nodup_append, hmidnd, hn]
    exact ih2 out2 h this
  | case7 fuel stack out =>
    intro out2 h hnd
    rw [visitList] at h
    simp only [Except.ok.injEq] at h
    rw [← h]
    exact hnd

theorem visitList_ok_mem_origin (childF : String → Option (List String)) :
    ∀ fuel stack todo out, ∀ out2,
      visitList childF fuel stack todo out = .ok out2 →
      ∀ m ∈ out2, m ∈ out ∨ (childF m).isSome := by
  intro fuel stack todo out
  induction fuel, stack, todo, out using visitList.induct childF with
  | case1 fuel stack n rest out h1 ih =>
    intro out2 h
    rw [visitList] at h
    simp only [if_pos h1] at h
    exact ih out2 h
  | case2 fuel stack n rest out h1 h2 =>
    intro out2 h
    rw [visitList] at h
    simp [h1, h2] at h
  | case3 fuel stack n rest out h1 h2 h3 =>
    intro out2 h
    rw [visitList] at h
    simp [h1, h2, h3] at h
  | case4 stack n rest out h1 h2 cs h3 =>
    intro out2 h
    rw [visitList] at h
    simp [h1, h2, h3] at h
  | case5 stack n rest out h1 h2 cs h3 fuel2 e herr ih =>
    intro out2 h
    rw [visitList] at h
    simp [h1, h2, h3, herr] at h
  | case6 stack n rest out h1 h2 cs h3 fuel2 mid hok ih1 ih2 =>
    intro out2 h m hm
    rw [visitList] at h
    simp only [if_neg h1, if_neg h2, h3, hok] at h
    rcases ih2 out2 h m hm with hin | hsome
    · rcases List.mem_append.mp hin with hc1 | hc2
      · rcases ih1 mid hok m hc1 with hin2 | hsome2
        · exact Or.inl hin2
        · exact Or.inr hsome2
      · right
        rw [List.mem_singleton.mp hc2, h3]
        rfl
    · exact Or.inr hsome
  | case7 fuel stack out =>
    intro out2 h m hm
    rw [visitList] at h
    simp only [Except.ok.injEq] at h
    rw [← h] at hm
    exact Or.inl hm

theorem append_singleton_decomp {α : Type} {l : List α} {n : α} {pre : List α} {x : α}
    {suf : List α} (h : l ++ [n] = pre ++ x :: suf) :
    (pre = l ∧ x = n ∧ suf = []) ∨ ∃ suf2, l = pre ++ x :: suf2 := by
  induction suf using List.reverseRecOn with
  | nil =>
    have := List.append_inj' h rfl
    exact Or.inl ⟨this.1.symm, (List.cons.injEq _ _ _ _ ▸ this.2.symm).1, rfl⟩
  | append_singleton suf2 last ih =>
    have h2 : l ++ [n] = (pre ++ x :: suf2) ++ [last] := by
      rw [h]; simp
    have := List.append_inj' h2 rfl
    exact Or.inr ⟨suf2, this.1⟩

theorem visitList_ok_good (childF : String → Option (List String)) :
    ∀ fuel stack todo out, ∀ out2,
      visitList childF fuel stack todo out = .ok out2 →
      GoodOrder childF out → GoodOrder childF out2 := by
  intro fuel stack todo out
  induction fuel, stack, todo, out using visitList.induct childF with
  | case1 fuel stack n rest out h1 ih =>
    intro out2 h
    rw [visitList] at h
    simp only [if_pos h1] at h
    exact ih out2 h
  | case2 fuel stack n rest out h1 h2 =>
    intro out2 h
    rw [visitList] at h
    simp [h1, h2] at h
  | case3 fuel stack n rest out h1 h2 h3 =>
    intro out2 h
    rw [visitList] at h
    simp [h1, h2, h3] at h
  | case4 stack n rest out h1 h2 cs h3 =>
    intro out2 h
    rw [visitList] at h
    simp [h1, h2, h3] at h
  | case5 stack n rest out h1 h2 cs h3 fuel2 e herr ih =>
    intro out2 h
    rw [visitList] at h
    simp [h1, h2, h3, herr] at h
  | case6 stack n rest out h1 h2 cs h3 fuel2 mid hok ih1 ih2 =>
    intro out2 h hgood
    rw [visitList] at h
    simp only [if_neg h1, if_neg h2, h3, hok] at h
    have hmid : GoodOrder childF mid := ih1 mid hok hgood
    have hcs : ∀ c ∈ cs, c ∈ mid := visitList_ok_todo_mem childF fuel2 (n :: stack) cs out mid hok
    have hext : GoodOrder childF (mid ++ [n]) := by
      intro pre x suf hdec cs0 hcs0 c hc
      rcases append_singleton_decomp hdec with ⟨hpre, hx, _⟩ | ⟨suf2, hdec2⟩
      · rw [hpre]
        rw [hx, h3] at hcs0
        have : cs0 = cs := by
          injection hcs0.symm
        exact hcs c (this ▸ hc)
      · exact hmid pre x suf2 hdec2 cs0 hcs0 c hc
    exact ih2 out2 h hext
  | case7 fuel stack out =>
    intro out2 h hgood
    rw [visitList] at h
    simp only [Except.ok.injEq] at h
    rw [← h]
    exact hgood

theorem visitList_ne_outOfFuel (childF : String → Option (List String)) (K : Finset String)
    (hK : ∀ n cs, childF n = some cs → n ∈ K) :
    ∀ fuel stack todo out,
      (K \ stack.toFinset).card < fuel →
      visitList childF fuel stack todo out ≠ .error .outOfFuel := by
  intro fuel stack todo out
  induction fuel, stack, todo, out using visitList.induct childF with
  | case1 fuel stack n rest out h1 ih =>
    intro hb h
    rw [visitList] at h
    simp only [if_pos h1] at h
    exact ih hb h
  | case2 fuel stack n rest out h1 h2 =>
    intro hb h
    rw [visitList] at h
    simp [h1, h2] at h
  | case3 fuel stack n rest out h1 h2 h3 =>
    intro hb h
    rw [visitList] at h
    simp [h1, h2, h3] at h
  | case4 stack n rest out h1 h2 cs h3 =>
    intro hb h
    exact absurd hb (by omega)
  | case5 stack n rest out h1 h2 cs h3 fuel2 e herr ih =>
    intro hb h
    rw [visitList] at h
    simp only [if_neg h1, if_neg h2, h3, herr] at h
    have he : e = CompileError.outOfFuel := by
      injection h
    have hnK : n ∈ K \ stack.toFinset :=
      Finset.mem_sdiff.mpr ⟨hK n cs h3, by simp [h2]⟩
    have hcard : (K \ (n :: stack).toFinset).card < fuel2 := by
      have h5 : (n :: stack).toFinset = insert n stack.toFinset := List.toFinset_cons
      have h6 : K \ insert n stack.toFinset = (K \ stack.toFinset).erase n := by
        rw [Finset.sdiff_insert]
      have h7 : ((K \ stack.toFinset).erase n).card = (K \ stack.toFinset).card - 1 :=
        Finset.card_erase_of_mem hnK
      have h8 : 0 < (K \ stack.toFinset).card := Finset.card_pos.mpr ⟨n, hnK⟩
      rw [h5, h6, h7]
      omega
    exact ih hcard (he ▸ herr)
  | case6 stack n rest out h1 h2 cs h3 fuel2 mid hok ih1 ih2 =>
    intro hb h
    rw [visitList] at h
    simp only [if_neg h1, if_neg h2, h3, hok] at h
    exact ih2 hb h
  | case7 fuel stack out =>
    intro hb h
    rw [visitList] at h
    simp at h

theorem mem_takeWhile_decomp {l : List String} {n : String} (h : n ∈ l) :
    ∃ rest, l = l.takeWhile (fun m => m ≠ n) ++ n :: rest := by
  induction l with
  | nil => cases h
  | cons x t ih =>
    by_cases hx : x = n
    · subst hx
      exact ⟨t, by simp⟩
    · rcases List.mem_cons.mp h with rfl | hm
      · exact absurd rfl hx
      · obtain ⟨rest, hr⟩ := ih hm
        refine ⟨rest, ?_⟩
        have hd : (decide (x ≠ n)) = true := by simp [hx]
        rw [List.takeWhile_cons, hd]
        simp only [if_true]
        rw [List.cons_append]
        exact congrArg (List.cons x) hr

theorem cycle_chain (e : String → String → Prop) (s : String) (ss : List String) (n : String)
    (hchain : List.Chain' (fun a b => e b a) (s :: ss))
    (hs : e s n) (hmem : n ∈ s :: ss) :
    List.Chain' e (n :: (((s :: ss).takeWhile (fun m => m ≠ n)).reverse ++ [n])) := by
  obtain ⟨rest, hdec⟩ := mem_takeWhile_decomp hmem
  have hchain2 :
      List.Chain' (fun a b => e b a)
        (((s :: ss).takeWhile (fun m => m ≠ n) ++ [n]) ++ rest) := by
    rw [List.append_assoc, List.singleton_append]
    exact hdec ▸ hchain
  have hpref :
      List.Chain' (fun a b => e b a) ((s :: ss).takeWhile (fun m => m ≠ n) ++ [n]) :=
    (List.chain'_append.mp hchain2).1
  have hrev :
      List.Chain' e (n :: ((s :: ss).takeWhile (fun m => m ≠ n)).reverse) := by
    have := (List.chain'_reverse
      (l := (s :: ss).takeWhile (fun m => m ≠ n) ++ [n]) (R := e)).mpr hpref
    simpa [List.reverse_append] using this
  have hlast :
      (n :: ((s :: ss).takeWhile (fun m => m ≠ n)).reverse).getLast? = some s := by
    cases htw : (s :: ss).takeWhile (fun m => m ≠ n) with
    | nil =>
      rw [htw] at hdec
      simp only [List.nil_append, List.cons.injEq] at hdec
      simp [htw, hdec.1]
    | cons t0 tw2 =>
      rw [htw] at hdec
      simp only [List.cons_append, List.cons.injEq] at hdec
      rw [List.reverse_cons, ← List.cons_append, List.getLast?_concat]
      rw [hdec.1]
  have hfull :
      List.Chain' e
        ((n :: ((s :: ss).takeWhile (fun m => m ≠ n)).reverse) ++ [n]) := by
    rw [List.chain'_append]
    refine ⟨hrev, List.chain'_singleton n, ?_⟩
    intro x hx y hy
    rw [hlast] at hx
    simp only [Option.mem_def, Option.some.injEq, List.head?_cons] at hx hy
    subst hx
    subst hy
    exact hs
  simpa using hfull

theorem chain_append_transGen (e : String → String → Prop) :
    ∀ (l : List String) (x y : String),
      List.Chain e x (l ++ [y]) → Relation.TransGen e x y := by
  intro l
  induction l with
  | nil =>
    intro x y h
    cases h with
    | cons hxy _ => exact Relation.TransGen.single hxy
  | cons a t ih =>
    intro x y h
    cases h with
    | cons hxa htail => exact (ih a y htail).head hxa

theorem cycle_shape_transGen (e : String → String → Prop) (x : String) (l : List String)
    (h : List.Chain' e (x :: (l ++ [x]))) : Relation.TransGen e x x :=
  chain_append_transGen e l x x h

theorem card_sdiff_cons_lt (K : Finset String) (stack : List String) (n : String)
    (hnK : n ∈ K) (hns : n ∉ stack) :
    (K \ (n :: stack).toFinset).card < (K \ stack.toFinset).card := by
  have hnD : n ∈ K \ stack.toFinset := Finset.mem_sdiff.mpr ⟨hnK, by simp [hns]⟩
  rw [List.toFinset_cons, Finset.sdiff_insert, Finset.card_erase_of_mem hnD]
  have hpos : 0 < (K \ stack.toFinset).card := Finset.card_pos.mpr ⟨n, hnD⟩
  omega

theorem visitList_cyclic_genuine (childF : String → Option (List String)) :
    ∀ fuel stack todo out, ∀ c,
      List.Chain' (fun a b => edgeF childF b a) stack →
      (∀ s ss, stack = s :: ss → ∀ m ∈ todo, edgeF childF s m) →
      visitList childF fuel stack todo out = .error (.cyclicDependency c) →
      ∃ x l, c = x :: (l ++ [x]) ∧ List.Chain' (edgeF childF) c := by
  intro fuel stack todo out
  induction fuel, stack, todo, out using visitList.induct childF with
  | case1 fuel stack n rest out h1 ih =>
    intro c hchain hbelow h
    rw [visitList] at h
    simp only [if_pos h1] at h
    exact ih c hchain (fun s ss hss m hm => hbelow s ss hss m (List.mem_cons_of_mem n hm)) h
  | case2 fuel stack n rest out h1 h2 =>
    intro c hchain hbelow h
    rw [visitList] at h
    rw [if_neg h1, if_pos h2] at h
    have hc : c = n :: ((stack.takeWhile (fun m => m ≠ n)).reverse ++ [n]) := by
      injection h with h4
      injection h4 with h5
      exact h5.symm
    cases hstack : stack with
    | nil => rw [hstack] at h2; cases h2
    | cons s ss =>
      have hs : edgeF childF s n :=
        hbelow s ss hstack n (List.mem_cons_self n rest)
      rw [hstack] at hchain h2
      have := cycle_chain (edgeF childF) s ss n hchain hs h2
      rw [hc, hstack]
      exact ⟨n, ((s :: ss).takeWhile (fun m => m ≠ n)).reverse, rfl, this⟩
  | case3 fuel stack n rest out h1 h2 h3 =>
    intro c hchain hbelow h
    rw [visitList] at h
    simp [h1, h2, h3] at h
  | case4 stack n rest out h1 h2 cs h3 =>
    intro c hchain hbelow h
    rw [visitList] at h
    simp [h1, h2, h3] at h
  | case5 stack n rest out h1 h2 cs h3 fuel2 e herr ih =>
    intro c hchain hbelow h
    rw [visitList] at h
    simp only [if_neg h1, if_neg h2, h3, herr] at h
    have he : e = CompileError.cyclicDependency c := by
      injection h
    have hchain2 : List.Chain' (fun a b => edgeF childF b a) (n :: stack) := by
      rw [List.chain'_cons']
      refine ⟨?_, hchain⟩
      intro b hb
      cases hstack : stack with
      | nil => rw [hstack] at hb; cases hb
      | cons s ss =>
        rw [hstack] at hb
        simp only [List.head?_cons, Option.mem_def, Option.some.injEq] at hb
        rw [← hb]
        exact hbelow s ss hstack n (List.mem_cons_self n rest)
    have hbelow2 : ∀ s ss, n :: stack = s :: ss → ∀ m ∈ cs, edgeF childF s m := by
      intro s ss hss m hm
      have hsn : s = n := by injection hss with h5 _; exact h5.symm
      rw [hsn]
      exact ⟨cs, h3, hm⟩
    exact ih c hchain2 hbelow2 (he ▸ herr)
  | case6 stack n rest out h1 h2 cs h3 fuel2 mid hok ih1 ih2 =>
    intro c hchain hbelow h
    rw [visitList] at h
    simp only [if_neg h1, if_neg h2, h3, hok] at h
    exact ih2 c hchain (fun s ss hss m hm => hbelow s ss hss m (List.mem_cons_of_mem n hm)) h
  | case7 fuel stack out =>
    intro c hchain hbelow h
    rw [visitList] at h
    simp at h

theorem visitList_acyclic_ok (childF : String → Option (List String)) (K : Finset String)
    (hK : ∀ n cs, childF n = some cs → n ∈ K)
    (hclosed : ClosedF childF)
    (hacyc : AcyclicF childF) :
    ∀ fuel stack todo out,
      (K \ stack.toFinset).card < fuel →
      List.Chain' (fun a b => edgeF childF b a) stack →
      (∀ s ss, stack = s :: ss → ∀ m ∈ todo, edgeF childF s m) →
      (∀ m ∈ todo, (childF m).isSome) →
      ∃ out2, visitList childF fuel stack todo out = .ok out2 := by
  intro fuel stack todo out
  induction fuel, stack, todo, out using visitList.induct childF with
  | case1 fuel stack n rest out h1 ih =>
    intro hb hchain hbelow hsome
    obtain ⟨out2, hout⟩ := ih hb hchain
      (fun s ss hss m hm => hbelow s ss hss m (List.mem_cons_of_mem n hm))
      (fun m hm => hsome m (List.mem_cons_of_mem n hm))
    refine ⟨out2, ?_⟩
    rw [visitList, if_pos h1]
    exact hout
  | case2 fuel stack n rest out h1 h2 =>
    intro hb hchain hbelow hsome
    cases hstack : stack with
    | nil => rw [hstack] at h2; cases h2
    | cons s ss =>
      rw [hstack] at hchain h2
      have hs : edgeF childF s n :=
        hbelow s ss hstack n (List.mem_cons_self n rest)
      have hcyc := cycle_chain (edgeF childF) s ss n hchain hs h2
      exact absurd (cycle_shape_transGen (edgeF childF) n _ hcyc) (hacyc n)
  | case3 fuel stack n rest out h1 h2 h3 =>
    intro hb hchain hbelow hsome
    have := hsome n (List.mem_cons_self n rest)
    rw [h3] at this
    cases this
  | case4 stack n rest out h1 h2 cs h3 =>
    intro hb hchain hbelow hsome
    exact absurd hb (by omega)
  | case5 stack n rest out h1 h2 cs h3 fuel2 e herr ih =>
    intro hb hchain hbelow hsome
    have hnK : n ∈ K := hK n cs h3
    have hcard : (K \ (n :: stack).toFinset).card < fuel2 := by
      have := card_sdiff_cons_lt K stack n hnK h2
      omega
    have hchain2 : List.Chain' (fun a b => edgeF childF b a) (n :: stack) := by
      rw [List.chain'_cons']
      refine ⟨?_, hchain⟩
      intro b hb2
      cases hstack : stack with
      | nil => rw [hstack] at hb2; cases hb2
      | cons s ss =>
        rw [hstack] at hb2
        simp only [List.head?_cons, Option.mem_def, Option.some.injEq] at hb2
        rw [← hb2]
        exact hbelow s ss hstack n (List.mem_cons_self n rest)
    have hbelow2 : ∀ s ss, n :: stack = s :: ss → ∀ m ∈ cs, edgeF childF s m := by
      intro s ss hss m hm
      have hsn : s = n := by injection hss with h5 _; exact h5.symm
      rw [hsn]
      exact ⟨cs, h3, hm⟩
    have hsome2 : ∀ m ∈ cs, (childF m).isSome := fun m hm => hclosed n cs h3 m hm
    obtain ⟨mid, hmid⟩ := ih hcard hchain2 hbelow2 hsome2
    rw [hmid] at herr
    cases herr
  | case6 stack n rest out h1 h2 cs h3 fuel2 mid hok ih1 ih2 =>
    intro hb hchain hbelow hsome
    obtain ⟨out2, hout⟩ := ih2 hb hchain
      (fun s ss hss m hm => hbelow s ss hss m (List.mem_cons_of_mem n hm))
      (fun m hm => hsome m (List.mem_cons_of_mem n hm))
    refine ⟨out2, ?_⟩
    rw [visitList]
    simp only [if_neg h1, if_neg h2, h3, hok]
    exact hout
  | case7 fuel stack out =>
    intro hb hchain hbelow hsome
    exact ⟨out, by rw [visitList]⟩

theorem indexOf_append_not_mem {a : String} {pre suf : List String} (h : a ∉ pre) :
    (pre ++ a :: suf).indexOf a = pre.length := by
  induction pre with
  | nil => exact List.indexOf_cons_self a suf
  | cons x t ih =>
    have hxa : x ≠ a := fun he => h (he ▸ List.mem_cons_self x t)
    have hat : a ∉ t := fun he => h (List.mem_cons_of_mem x he)
    simp only [List.cons_append, List.indexOf_cons_ne _ hxa, ih hat, List.length_cons]

theorem indexOf_append_mem {b : String} {pre rest : List String} (h : b ∈ pre) :
    (pre ++ rest).indexOf b < pre.length := by
  induction pre with
  | nil => cases h
  | cons x t ih =>
    by_cases hx : x = b
    · subst hx
      simp [List.indexOf_cons_self]
    · have hbt : b ∈ t := by
        rcases List.mem_cons.mp h with he | he
        · exact absurd he.symm hx
        · exact he
      have hxb : x ≠ b := hx
      simp only [List.cons_append, List.indexOf_cons_ne _ hxb, List.length_cons]
      exact Nat.succ_lt_succ (ih hbt)

theorem goodOrder_nil (childF : String → Option (List String)) : GoodOrder childF [] := by
  intro pre n suf hdec
  exact absurd hdec (by simp)

theorem goodOrder_edge_idx (childF : String → Option (List String)) {l : List String}
    (hg : GoodOrder childF l) (hnd : l.Nodup) {a b : String}
    (hedge : edgeF childF a b) (ha : a ∈ l) :
    b ∈ l ∧ l.indexOf b < l.indexOf a := by
  obtain ⟨pre, suf, hdec⟩ := List.append_of_mem ha
  obtain ⟨cs, hcs, hb⟩ := hedge
  have hbpre : b ∈ pre := hg pre a suf hdec cs hcs b hb
  have hanp : a ∉ pre := by
    have hd := (List.nodup_append.mp (hdec ▸ hnd)).2.2
    exact fun hc => hd hc (List.mem_cons_self a suf)
  constructor
  · rw [hdec]
    exact List.mem_append.mpr (Or.inl hbpre)
  · rw [hdec, indexOf_append_not_mem hanp]
    exact indexOf_append_mem hbpre

theorem goodOrder_transGen_idx (childF : String → Option (List String)) {l : List String}
    (hg : GoodOrder childF l) (hnd : l.Nodup) {a b : String}
    (h : Relation.TransGen (edgeF childF) a b) (ha : a ∈ l) :
    b ∈ l ∧ l.indexOf b < l.indexOf a := by
  induction h with
  | single hedge => exact goodOrder_edge_idx childF hg hnd hedge ha
  | tail hab hbc ih =>
    obtain ⟨hb, hlt⟩ := ih
    obtain ⟨hc, hlt2⟩ := goodOrder_edge_idx childF hg hnd hbc hb
    exact ⟨hc, lt_trans hlt2 hlt⟩

theorem goodOrder_no_cycle (childF : String → Option (List String)) {l : List String}
    (hg : GoodOrder childF l) (hnd : l.Nodup) {x : String}
    (hx : x ∈ l) (hcyc : Relation.TransGen (edgeF childF) x x) : False := by
  obtain ⟨_, hlt⟩ := goodOrder_transGen_idx childF hg hnd hcyc hx
  exact lt_irrefl _ hlt

theorem visitList_ne_missing (childF : String → Option (List String))
    (hclosed : ClosedF childF) :
    ∀ fuel stack todo out,
      (∀ m ∈ todo, (childF m).isSome) →
      ∀ a, visitList childF fuel stack todo out ≠ .error (.missingNode a) := by
  intro fuel stack todo out
  induction fuel, stack, todo, out using visitList.induct childF with
  | case1 fuel stack n rest out h1 ih =>
    intro hsome a h
    rw [visitList] at h
    simp only [if_pos h1] at h
    exact ih (fun m hm => hsome m (List.mem_cons_of_mem n hm)) a h
  | case2 fuel stack n rest out h1 h2 =>
    intro hsome a h
    rw [visitList] at h
    simp [h1, h2] at h
  | case3 fuel stack n rest out h1 h2 h3 =>
    intro hsome a h
    have := hsome n (List.mem_cons_self n rest)
    rw [h3] at this
    cases this
  | case4 stack n rest out h1 h2 cs h3 =>
    intro hsome a h
    rw [visitList] at h
    simp [h1, h2, h3] at h
  | case5 stack n rest out h1 h2 cs h3 fuel2 e herr ih =>
    intro hsome a h
    rw [visitList] at h
    simp only [if_neg h1, if_neg h2, h3, herr] at h
    have he : e = CompileError.missingNode a := by injection h
    exact ih (fun m hm => hclosed n cs h3 m hm) a (he ▸ herr)
  | case6 stack n rest out h1 h2 cs h3 fuel2 mid hok ih1 ih2 =>
    intro hsome a h
    rw [visitList] at h
    simp only [if_neg h1, if_neg h2, h3, hok] at h
    exact ih2 (fun m hm => hsome m (List.mem_cons_of_mem n hm)) a h
  | case7 fuel stack out =>
    intro hsome a h
    rw [visitList] at h
    simp at h

theorem lookupSpec_mem_keys {g : Graph} {n : String} {s : NodeSpec}
    (h : lookupSpec g n = some s) : n ∈ g.map Prod.fst := by
  induction g with
  | nil => cases h
  | cons e t ih =>
    rw [lookupSpec] at h
    by_cases he : e.1 = n
    · rw [List.map_cons]
      exact he ▸ List.mem_cons_self e.1 (t.map Prod.fst)
    · rw [if_neg he] at h
      exact List.mem_cons_of_mem e.1 (ih h)

theorem childOf_mem_keys {g : Graph} {n : String} {cs : List String}
    (h : childOf g n = some cs) : n ∈ (g.map Prod.fst).toFinset := by
  rw [childOf] at h
  cases hl : lookupSpec g n with
  | none => rw [hl] at h; cases h
  | some s => exact List.mem_toFinset.mpr (lookupSpec_mem_keys hl)

theorem compile_fuel_bound (g : Graph) :
    (((g.map Prod.fst).toFinset) \ (List.toFinset [])).card < g.length + 1 := by
  have h1 : (g.map Prod.fst).toFinset.card ≤ (g.map Prod.fst).length :=
    (g.map Prod.fst).toFinset_card_le
  have h2 : (g.map Prod.fst).length = g.length := List.length_map g Prod.fst
  simpa using by omega

theorem compile_ok_nodup {g : Graph} {roots order : List String}
    (h : compile g roots = .ok order) : order.Nodup :=
  visitList_ok_nodup (childOf g) (g.length + 1) [] roots [] order h List.nodup_nil

theorem compile_ok_good {g : Graph} {roots order : List String}
    (h : compile g roots = .ok order) : GoodOrder (childOf g) order :=
  visitList_ok_good (childOf g) (g.length + 1) [] roots [] order h (goodOrder_nil _)

theorem compile_ok_roots_mem {g : Graph} {roots order : List String}
    (h : compile g roots = .ok order) : ∀ r ∈ roots, r ∈ order :=
  visitList_ok_todo_mem (childOf g) (g.length + 1) [] roots [] order h

theorem compile_ok_reachable {g : Graph} {roots order : List String}
    (h : compile g roots = .ok order) {r x : String} (hr : r ∈ roots)
    (hreach : Relation.ReflTransGen (gEdge g) r x) : x ∈ order := by
  induction hreach with
  | refl => exact compile_ok_roots_mem h r hr
  | tail hab hbc ih =>
    exact (goodOrder_edge_idx (childOf g) (compile_ok_good h) (compile_ok_nodup h) hbc ih).1

theorem compile_ok_of_acyclic (g : Graph) (roots : List String)
    (hclosed : ClosedF (childOf g))
    (hroots : ∀ a ∈ roots, (childOf g a).isSome)
    (hacyc : AcyclicF (childOf g)) :
    ∃ order, compile g roots = .ok order := by
  exact visitList_acyclic_ok (childOf g) ((g.map Prod.fst).toFinset)
    (fun n cs hcs => childOf_mem_keys hcs) hclosed hacyc
    (g.length + 1) [] roots [] (compile_fuel_bound g)
    List.chain'_nil (fun s ss hss => by cases hss) hroots

theorem emitNode_eq_of_fields {n : String} {a b : NodeSpec}
    (hdeps : a.deps = b.deps) (hres : a.resultDir = b.resultDir)
    (hcmds : a.getCommands = b.getCommands) (hsort : sortMounts a.mounts = sortMounts b.mounts) :
    emitNode n a = emitNode n b := by
  simp only [emitNode, stagingRecipe, hdeps, hres, hcmds, hsort]

theorem specChildren_eq_of_sort {a b : NodeSpec}
    (hsort : sortMounts a.mounts = sortMounts b.mounts) :
    specChildren a = specChildren b := by
  simp only [specChildren, hsort]

theorem sameMounts_pointwise {g g2 : Graph} (h : SameMountsUpToPerm g g2) (n : String) :
    childOf g n = childOf g2 n ∧
      (lookupSpec g n).map (emitNode n) = (lookupSpec g2 n).map (emitNode n) := by
  induction h with
  | nil => exact ⟨rfl, rfl⟩
  | @cons a b t t2 hab htail ih =>
    obtain ⟨h1, hdeps, hres, hcmds, hperm, hnod⟩ := hab
    have hsort := sortMounts_eq_of_perm hperm hnod
    constructor
    · rw [childOf, childOf, lookupSpec, lookupSpec, h1]
      by_cases he : b.1 = n
      · rw [if_pos he, if_pos he]
        exact congrArg some (specChildren_eq_of_sort hsort)
      · rw [if_neg he, if_neg he]
        exact ih.1
    · rw [lookupSpec, lookupSpec, h1]
      by_cases he : b.1 = n
      · rw [if_pos he, if_pos he]
        exact congrArg some (emitNode_eq_of_fields hdeps hres hcmds hsort)
      · rw [if_neg he, if_neg he]
        exact ih.2

theorem sameMounts_childOf {g g2 : Graph} (h : SameMountsUpToPerm g g2) :
    childOf g = childOf g2 :=
  funext fun n => (sameMounts_pointwise h n).1

theorem sameMounts_length {g g2 : Graph} (h : SameMountsUpToPerm g g2) :
    List.length g = List.length g2 :=
  List.Forall₂.length_eq h

theorem sameMounts_compile {g g2 : Graph} (h : SameMountsUpToPerm g g2) (roots : List String) :
    compile g roots = compile g2 roots := by
  rw [compile, compile, sameMounts_childOf h, sameMounts_length h]

theorem sameMounts_emitDoc {g g2 : Graph} (h : SameMountsUpToPerm g g2) (order : List String) :
    emitDoc g order = emitDoc g2 order := by
  induction order with
  | nil => rfl
  | cons n t ih =>
    rw [emitDoc, emitDoc, List.filterMap_cons, List.filterMap_cons,
      (sameMounts_pointwise h n).2]
    rw [emitDoc, emitDoc] at ih
    cases (lookupSpec g2 n).map (emitNode n) with
    | none => exact ih
    | some tgt => rw [ih]

theorem archiveFile_injective : Function.Injective archiveFile := by
  intro a b h
  have hd := congrArg String.data h
  rw [archiveFile, archiveFile, String.data_append, String.data_append,
    String.data_append, String.data_append] at hd
  exact String.ext (List.append_cancel_left (List.append_cancel_right hd))

theorem emitDoc_map_output {g : Graph} :
    ∀ {order : List String}, (∀ n ∈ order, (lookupSpec g n).isSome) →
      (emitDoc g order).map Target.output = order.map archiveFile := by
  intro order
  induction order with
  | nil => intro _; rfl
  | cons n t ih =>
    intro h
    cases hl : lookupSpec g n with
    | none =>
      have := h n (List.mem_cons_self n t)
      rw [hl] at this
      cases this
    | some s =>
      have ht := ih (fun m hm => h m (List.mem_cons_of_mem n hm))
      rw [emitDoc] at ht
      rw [emitDoc, List.filterMap_cons, hl]
      simp only [Option.map_some', List.map_cons, ht]
      rfl

theorem mem_emitDoc_of_lookup {g : Graph} {l : List String} {m : String} {s : NodeSpec}
    (hm : m ∈ l) (hs : lookupSpec g m = some s) : emitNode m s ∈ emitDoc g l :=
  List.mem_filterMap.mpr ⟨m, hm, by rw [hs]; rfl⟩

theorem compile_ok_lookup {g : Graph} {roots order : List String}
    (h : compile g roots = .ok order) : ∀ m ∈ order, (lookupSpec g m).isSome := by
  intro m hm
  rcases visitList_ok_mem_origin (childOf g) (g.length + 1) [] roots [] order h m hm with
    hin | hsome
  · cases hin
  · rw [childOf] at hsome
    cases hl : lookupSpec g m with
    | none => rw [hl] at hsome; cases hsome
    | some s => rfl

theorem lookupSpec_mem_pair {g : Graph} {n : String} {s : NodeSpec}
    (h : lookupSpec g n = some s) : (n, s) ∈ g := by
  induction g with
  | nil => cases h
  | cons e t ih =>
    rw [lookupSpec] at h
    by_cases he : e.1 = n
    · rw [if_pos he] at h
      have hs : e.2 = s := by injection h
      have : e = (n, s) := by
        rw [← he, ← hs]
      exact this ▸ List.mem_cons_self e t
    · rw [if_neg he] at h
      exact List.mem_cons_of_mem e (ih h)

theorem closedF_of_forall (g : Graph)
    (h : ∀ e ∈ g, ∀ m ∈ e.2.mounts, (lookupSpec g m.2).isSome = true) :
    ClosedF (childOf g) := by
  intro n cs hcs c hc
  rw [childOf] at hcs
  cases hl : lookupSpec g n with
  | none => rw [hl] at hcs; cases hcs
  | some s =>
    rw [hl] at hcs
    have hcseq : specChildren s = cs := by injection hcs
    rw [← hcseq, specChildren] at hc
    obtain ⟨m, hmem, heq⟩ := List.mem_map.mp hc
    have hm2 : m ∈ s.mounts := mem_sortMounts.mp hmem
    have hsome := h (n, s) (lookupSpec_mem_pair hl) m hm2
    rw [heq] at hsome
    rw [childOf]
    cases hl2 : lookupSpec g c with
    | none => rw [hl2] at hsome; cases hsome
    | some s2 => rfl

theorem acyclicF_of_rank (childF : String → Option (List String)) (rank : String → Nat)
    (h : ∀ a b, edgeF childF a b → rank b < rank a) : AcyclicF childF := by
  intro n hcyc
  have hstep : ∀ {a b : String}, Relation.TransGen (edgeF childF) a b → rank b < rank a := by
    intro a b hab
    induction hab with
    | single he => exact h _ _ he
    | tail hab2 hbc ih => exact lt_trans (h _ _ hbc) ih
  exact lt_irrefl _ (hstep hcyc)

/-- Claim C1, amended: for every closed, acyclic set of root Artifact
Descriptors, `compile` terminates and returns a Build Descriptor in which every
node appears exactly once, every node's mount dependencies appear strictly
earlier in the target sequence, the emitted targets have pairwise distinct
output paths, and every mount-derived prerequisite path of a target
corresponds to exactly one target, emitted strictly earlier, whose output is
that path.  (The claim's clause "every prerequisite path corresponds to a
target" holds only for the mount-derived prerequisites: file-dependency
prerequisites name source files that are no target, see the counterexample.)
-/
theorem compile_topological_order (g : Graph) (roots : List String)
    (hclosed : ClosedF (childOf g))
    (hroots : ∀ a ∈ roots, (childOf g a).isSome)
    (hacyc : AcyclicF (childOf g)) :
    ∃ order, compile g roots = .ok order ∧ order.Nodup ∧
      GoodOrder (childOf g) order ∧
      ((emitDoc g order).map Target.output).Nodup ∧
      ∀ pre n suf, order = pre ++ n :: suf → ∀ s, lookupSpec g n = some s →
        ∀ m ∈ s.mounts, archiveFile m.2 ∈ (emitNode n s).prereqs ∧
          ∃ s2, lookupSpec g m.2 = some s2 ∧ emitNode m.2 s2 ∈ emitDoc g pre ∧
            (emitNode m.2 s2).output = archiveFile m.2 := by
  obtain ⟨order, hok⟩ := compile_ok_of_acyclic g roots hclosed hroots hacyc
  have hnd := compile_ok_nodup hok
  have hgood := compile_ok_good hok
  have hlook := compile_ok_lookup hok
  refine ⟨order, hok, hnd, hgood, ?_, ?_⟩
  · rw [emitDoc_map_output hlook]
    exact hnd.map archiveFile_injective
  · intro pre n suf hdec s hs m hm
    have hchild : childOf g n = some (specChildren s) := by rw [childOf, hs]; rfl
    have hmsort : m ∈ sortMounts s.mounts := mem_sortMounts.mpr hm
    have hmsnd : m.2 ∈ specChildren s := List.mem_map_of_mem Prod.snd hmsort
    have hpre : m.2 ∈ pre := hgood pre n suf hdec (specChildren s) hchild m.2 hmsnd
    constructor
    · exact List.mem_append.mpr
        (Or.inr (List.mem_map_of_mem (fun m2 => archiveFile m2.2) hmsort))
    · have hmo : m.2 ∈ order := by
        rw [hdec]
        exact List.mem_append.mpr (Or.inl hpre)
      have hso := hlook m.2 hmo
      cases hl2 : lookupSpec g m.2 with
      | none => rw [hl2] at hso; cases hso
      | some s2 => exact ⟨s2, rfl, mem_emitDoc_of_lookup hpre hl2, rfl⟩

/-- Claim C1, counterexample to the clause "every prerequisite path listed by
a target corresponds to exactly one earlier-or-equal target": compiling the
one-node graph whose node has the file dependency `package.json` emits a
target whose prerequisite `package.json` is the output path of no target in
the document. -/
theorem compile_file_dep_prereq_no_target :
    compileDoc fdGraph ["fd"] = .ok [emitNode "fd" fdSpec] ∧
    "package.json" ∈ (emitNode "fd" fdSpec).prereqs ∧
    ∀ t ∈ [emitNode "fd" fdSpec], t.output ≠ "package.json" := by
  refine ⟨?_, ?_, ?_⟩
  · have hc : compile fdGraph ["fd"] = .ok ["fd"] := by
      simp [compile, visitList, childOf, lookupSpec, fdGraph, fdSpec, specChildren,
        sortMounts, List.insertionSort]
    rw [compileDoc, hc]
    rfl
  · simp [emitNode, fdSpec, sortMounts, List.insertionSort]
  · intro t ht
    rw [List.mem_singleton] at ht
    rw [ht]
    show archiveFile "fd" ≠ "package.json"
    decide

/-- Claim C1, witness: the amended theorem applied to the concrete two-node
example graph with root `root`. -/
theorem compile_topological_order_witness :
    ∃ order, compile exGraph ["root"] = .ok order ∧ order.Nodup ∧
      GoodOrder (childOf exGraph) order ∧
      ((emitDoc exGraph order).map Target.output).Nodup ∧
      ∀ pre n suf, order = pre ++ n :: suf → ∀ s, lookupSpec exGraph n = some s →
        ∀ m ∈ s.mounts, archiveFile m.2 ∈ (emitNode n s).prereqs ∧
          ∃ s2, lookupSpec exGraph m.2 = some s2 ∧ emitNode m.2 s2 ∈ emitDoc exGraph pre ∧
            (emitNode m.2 s2).output = archiveFile m.2 := by
  apply compile_topological_order
  · exact closedF_of_forall exGraph (by decide)
  · intro a ha
    rw [List.mem_singleton] at ha
    rw [ha]
    decide
  · apply acyclicF_of_rank _ (fun n => if n = "root" then 1 else 0)
    intro a b hedge
    obtain ⟨cs, hcs, hb⟩ := hedge
    have htable : ∀ x, childOf exGraph x =
        if "leaf" = x then some [] else if "root" = x then some ["leaf"] else none := by
      intro x
      show (lookupSpec exGraph x).map specChildren = _
      rw [exGraph, lookupSpec, lookupSpec, lookupSpec]
      split_ifs <;> rfl
    rw [htable a] at hcs
    split_ifs at hcs with h1 h2
    · have h3 : cs = [] := by injection hcs with h4; exact h4.symm
      rw [h3] at hb
      cases hb
    · have h3 : cs = ["leaf"] := by injection hcs with h4; exact h4.symm
      rw [h3, List.mem_singleton] at hb
      rw [hb, ← h2]
      decide

/-- Claim C3: for every descriptor graph in which some node reachable from the
roots mounts itself directly or transitively, `compile` fails with
`CyclicDependency` carrying the full cycle — a nonempty archive-name sequence
that starts and ends with the same name and follows mount edges throughout —
and, being a total function, never loops indefinitely. -/
theorem compile_cyclic_dependency (g : Graph) (roots : List String) (r x : String)
    (hclosed : ClosedF (childOf g))
    (hroots : ∀ a ∈ roots, (childOf g a).isSome)
    (hr : r ∈ roots) (hreach : Relation.ReflTransGen (gEdge g) r x)
    (hcyc : Relation.TransGen (gEdge g) x x) :
    ∃ c y l, compile g roots = .error (.cyclicDependency c) ∧
      c = y :: (l ++ [y]) ∧ List.Chain' (gEdge g) c := by
  cases hres : compile g roots with
  | ok order =>
    exfalso
    have hx : x ∈ order := compile_ok_reachable hres hr hreach
    exact goodOrder_no_cycle (childOf g) (compile_ok_good hres) (compile_ok_nodup hres)
      hx hcyc
  | error e =>
    cases e with
    | cyclicDependency c =>
      obtain ⟨y, l, hshape, hchain⟩ := visitList_cyclic_genuine (childOf g)
        (g.length + 1) [] roots [] c List.chain'_nil (fun s ss hss => by cases hss) hres
      exact ⟨c, y, l, rfl, hshape, hchain⟩
    | missingNode a =>
      exact absurd hres
        (visitList_ne_missing (childOf g) hclosed (g.length + 1) [] roots [] hroots a)
    | outOfFuel =>
      exact absurd hres
        (visitList_ne_outOfFuel (childOf g) ((g.map Prod.fst).toFinset)
          (fun n cs hcs => childOf_mem_keys hcs) (g.length + 1) [] roots []
          (compile_fuel_bound g))

/-- Claim C3, witness: the theorem applied to the one-node self-mounting
graph. -/
theorem compile_cyclic_dependency_witness :
    ∃ c y l, compile selfGraph ["X"] = .error (.cyclicDependency c) ∧
      c = y :: (l ++ [y]) ∧ List.Chain' (gEdge selfGraph) c := by
  apply compile_cyclic_dependency selfGraph ["X"] "X" "X"
  · exact closedF_of_forall selfGraph (by decide)
  · intro a ha
    rw [List.mem_singleton] at ha
    rw [ha]
    decide
  · exact List.mem_singleton.mpr rfl
  · exact Relation.ReflTransGen.refl
  · refine Relation.TransGen.single ⟨["X"], rfl, List.mem_singleton.mpr rfl⟩

/-- Claim C2: compiling the identical descriptor input twice yields textually
identical Build Descriptor documents — in particular the emitted text does not
depend on the enumeration order in which a mounts mapping lists its unique
sub-path keys, because traversal and emission use the stable lexicographic
key order. -/
theorem compile_render_deterministic (g g2 : Graph) (roots : List String)
    (h : SameMountsUpToPerm g g2) :
    compileRender g roots = compileRender g2 roots := by
  rw [compileRender, compileRender, sameMounts_compile h roots]
  cases hres : compile g2 roots with
  | error e => rfl
  | ok order =>
    show Except.ok (renderDoc (emitDoc g order)) = Except.ok (renderDoc (emitDoc g2 order))
    rw [sameMounts_emitDoc h order]

/-- Claim C2, witness: the theorem applied to the concrete graph whose root
lists its two mounts in the two possible orders. -/
theorem compile_render_deterministic_witness :
    compileRender permGraphA ["r"] = compileRender permGraphB ["r"] := by
  apply compile_render_deterministic
  refine List.Forall₂.cons ?_ (List.Forall₂.cons ?_ (List.Forall₂.cons ?_ List.Forall₂.nil))
  · exact ⟨rfl, rfl, rfl, rfl, List.Perm.swap ("/b", "b") ("/a", "a") [], by decide⟩
  · exact ⟨rfl, rfl, rfl, rfl, List.Perm.refl _, by decide⟩
  · exact ⟨rfl, rfl, rfl, rfl, List.Perm.refl _, by decide⟩

/-- Claim C4: when a descriptor `B` is mounted by two different nodes `A` and
`C` of a successfully compiled graph (identity being the archive name), the
compiled sequence contains exactly one node for `B`; both `A`'s and `C`'s
targets reference the same output path `archiveFile B` — as a prerequisite and
in the staging command of their recipes — and a repeat visit of an
already-completed name neither re-descends nor re-appends (it reduces to the
traversal of the remaining names). -/
theorem compile_dedup_shared_mount (g : Graph) (roots : List String)
    (A C B pA pC : String) (sA sC : NodeSpec) (order : List String)
    (hok : compile g roots = .ok order)
    (hA : lookupSpec g A = some sA) (hmA : (pA, B) ∈ sA.mounts)
    (hC : lookupSpec g C = some sC) (hmC : (pC, B) ∈ sC.mounts)
    (hAo : A ∈ order) :
    order.count B = 1 ∧
    archiveFile B ∈ (emitNode A sA).prereqs ∧
    archiveFile B ∈ (emitNode C sC).prereqs ∧
    mountCmd A (pA, B) ∈ (emitNode A sA).recipe ∧
    mountCmd C (pC, B) ∈ (emitNode C sC).recipe ∧
    ∀ fuel stack rest out, B ∈ out →
      visitList (childOf g) fuel stack (B :: rest) out =
        visitList (childOf g) fuel stack rest out := by
  have hgood := compile_ok_good hok
  have hnd := compile_ok_nodup hok
  have hedge : edgeF (childOf g) A B := by
    refine ⟨specChildren sA, by rw [childOf, hA]; rfl, ?_⟩
    exact List.mem_map_of_mem Prod.snd (mem_sortMounts.mpr hmA)
  have hBo : B ∈ order := (goodOrder_edge_idx (childOf g) hgood hnd hedge hAo).1
  refine ⟨List.count_eq_one_of_mem hnd hBo, ?_, ?_, ?_, ?_, ?_⟩
  · exact List.mem_append.mpr
      (Or.inr (List.mem_map_of_mem (fun m2 => archiveFile m2.2) (mem_sortMounts.mpr hmA)))
  · exact List.mem_append.mpr
      (Or.inr (List.mem_map_of_mem (fun m2 => archiveFile m2.2) (mem_sortMounts.mpr hmC)))
  · have hin : mountCmd A (pA, B) ∈ (sortMounts sA.mounts).map (mountCmd A) :=
      List.mem_map_of_mem (mountCmd A) (mem_sortMounts.mpr hmA)
    exact List.mem_cons_of_mem _ (List.mem_cons_of_mem _
      (List.mem_append.mpr (Or.inl (List.mem_append.mpr (Or.inl hin)))))
  · have hin : mountCmd C (pC, B) ∈ (sortMounts sC.mounts).map (mountCmd C) :=
      List.mem_map_of_mem (mountCmd C) (mem_sortMounts.mpr hmC)
    exact List.mem_cons_of_mem _ (List.mem_cons_of_mem _
      (List.mem_append.mpr (Or.inl (List.mem_append.mpr (Or.inl hin)))))
  · intro fuel stack rest out hBout
    exact visitList_skip (childOf g) fuel stack rest out B hBout

/-- Claim C4, witness: the theorem applied to the concrete graph in which `A`
and `C` both mount `B`, compiled from the roots `A` and `C`. -/
theorem compile_dedup_shared_mount_witness :
    (["B", "A", "C"] : List String).count "B" = 1 ∧
    archiveFile "B" ∈ (emitNode "A" aSpec).prereqs ∧
    archiveFile "B" ∈ (emitNode "C" cSpec).prereqs ∧
    mountCmd "A" ("/b", "B") ∈ (emitNode "A" aSpec).recipe ∧
    mountCmd "C" ("/b", "B") ∈ (emitNode "C" cSpec).recipe ∧
    ∀ fuel stack rest out, "B" ∈ out →
      visitList (childOf abcGraph) fuel stack ("B" :: rest) out =
        visitList (childOf abcGraph) fuel stack rest out := by
  have hok : compile abcGraph ["A", "C"] = .ok ["B", "A", "C"] := by
    simp [compile, visitList, childOf, lookupSpec, abcGraph, aSpec, bSpec, cSpec,
      specChildren, sortMounts, List.insertionSort]
  exact compile_dedup_shared_mount abcGraph ["A", "C"] "A" "C" "B" "/b" "/b" aSpec cSpec
    ["B", "A", "C"] hok rfl (List.mem_singleton.mpr rfl) rfl (List.mem_singleton.mpr rfl)
    (by decide)

/-- Claim C5: `defineArtifact` fails if and only if the archive name is empty,
the mount keys collide after path normalization, or the command template is
absent; every failure is an `InvalidConfig` value returned synchronously by
the defining call, and a definition step never touches the shared Makefile
(fatal only to the defining call). -/
theorem defineArtifact_invalid_iff (c : ArtifactConfig) :
    ((∃ e, defineArtifact c = .error e) ↔
      (c.archiveName = "" ∨ ¬ (c.mounts.map (fun m => normalizePath m.1)).Nodup ∨
        c.commandTemplate = none)) ∧
    (∀ e, defineArtifact c = .error e → ∃ why, e = .invalidConfig why) ∧
    (∀ m : Makefile, runOp m (.defineArt c) = m) := by
  refine ⟨⟨?_, ?_⟩, ?_, fun m => rfl⟩
  · rintro ⟨e, he⟩
    rw [defineArtifact] at he
    by_cases h1 : c.archiveName = ""
    · exact Or.inl h1
    · rw [if_neg h1] at he
      by_cases h2 : (c.mounts.map (fun m => normalizePath m.1)).Nodup
      · rw [if_pos h2] at he
        cases h3 : c.commandTemplate with
        | none => exact Or.inr (Or.inr rfl)
        | some f =>
          rw [h3] at he
          simp at he
      · exact Or.inr (Or.inl h2)
  · intro h
    rw [defineArtifact]
    by_cases h1 : c.archiveName = ""
    · rw [if_pos h1]
      exact ⟨_, rfl⟩
    · rw [if_neg h1]
      by_cases h2 : (c.mounts.map (fun m => normalizePath m.1)).Nodup
      · rw [if_pos h2]
        cases h3 : c.commandTemplate with
        | none => exact ⟨_, rfl⟩
        | some f =>
          rcases h with ha | hb | hc
          · exact absurd ha h1
          · exact absurd h2 hb
          · rw [h3] at hc
            cases hc
      · rw [if_neg h2]
        exact ⟨_, rfl⟩
  · intro e he
    rw [defineArtifact] at he
    by_cases h1 : c.archiveName = ""
    · rw [if_pos h1] at he
      exact ⟨"empty archiveName", by injection he with h4; exact h4.symm⟩
    · rw [if_neg h1] at he
      by_cases h2 : (c.mounts.map (fun m => normalizePath m.1)).Nodup
      · rw [if_pos h2] at he
        cases h3 : c.commandTemplate with
        | none =>
          rw [h3] at he
          exact ⟨"missing commandTemplate", by injection he with h4; exact h4.symm⟩
        | some f =>
          rw [h3] at he
          simp at he
      · rw [if_neg h2] at he
        exact ⟨"colliding mount paths", by injection he with h4; exact h4.symm⟩

/-- Claim C6, amended: every emitted artifact target's output path is the
deterministic function `archiveFile` of its archive name, and its prerequisite
list is exactly its file dependencies followed by its direct mount-derived
dependencies in stable order — never transitive ones; in particular the
end-to-end example compiles to the two-target document in which the `leaf`
target has no prerequisites and the `root` target's sole prerequisite is
`leaf`'s output path, in that order. -/
theorem emit_prereqs_direct :
    (∀ n s, (emitNode n s).output = archiveFile n) ∧
    (∀ n s, (emitNode n s).prereqs =
      s.deps ++ (sortMounts s.mounts).map (fun m => archiveFile m.2)) ∧
    compileDoc exGraph ["root"] = .ok [emitNode "leaf" leafSpec, emitNode "root" rootSpec] ∧
    (emitNode "leaf" leafSpec).prereqs = [] ∧
    (emitNode "root" rootSpec).prereqs = [archiveFile "leaf"] := by
  refine ⟨fun n s => rfl, fun n s => rfl, ?_, rfl, rfl⟩
  have hc : compile exGraph ["root"] = .ok ["leaf", "root"] := by
    simp [compile, visitList, childOf, lookupSpec, exGraph, leafSpec, rootSpec,
      specChildren, sortMounts, List.insertionSort]
  rw [compileDoc, hc]
  rfl

/-- Claim C6, counterexample to "the prerequisite list is exactly the direct
mount-derived dependencies": a node with the file dependency `package.json`
and no mounts has prerequisite list `[package.json]`, not the empty
mount-derived list. -/
theorem emit_prereqs_include_file_deps :
    (emitNode "fd" fdSpec).prereqs = ["package.json"] ∧
    (sortMounts fdSpec.mounts).map (fun m => archiveFile m.2) = [] ∧
    (emitNode "fd" fdSpec).prereqs ≠
      (sortMounts fdSpec.mounts).map (fun m => archiveFile m.2) := by
  exact ⟨rfl, rfl, by decide⟩

/-- Claim C7: for every valid configuration `defineArtifact` returns a
descriptor value, and descriptor construction has no observable side effect on
the shared Makefile: a program prefix consisting only of definition steps
leaves any Makefile state unchanged. -/
theorem defineArtifact_no_side_effects (c : ArtifactConfig) (m : Makefile)
    (h1 : c.archiveName ≠ "")
    (h2 : (c.mounts.map (fun m2 => normalizePath m2.1)).Nodup)
    (h3 : c.commandTemplate.isSome) :
    (∃ d, defineArtifact c = .ok d) ∧
    (∀ ops : List BuildOp, (∀ op ∈ ops, ∃ cfg, op = .defineArt cfg) →
      runOps m ops = m) := by
  constructor
  · rw [defineArtifact, if_neg h1, if_pos h2]
    cases h4 : c.commandTemplate with
    | none =>
      rw [h4] at h3
      cases h3
    | some f => exact ⟨_, rfl⟩
  · intro ops
    induction ops generalizing m with
    | nil => intro _; rfl
    | cons op t ih =>
      intro hops
      obtain ⟨cfg, hcfg⟩ := hops op (List.mem_cons_self op t)
      rw [runOps, List.foldl_cons, hcfg]
      exact ih m (fun op2 hop2 => hops op2 (List.mem_cons_of_mem op hop2))

/-- Claim C7, witness: the theorem applied to a concrete valid configuration
and the empty Makefile. -/
theorem defineArtifact_no_side_effects_witness :
    (∃ d, defineArtifact
      ⟨"leaf", [], [], none, some (fun p => ["touch " ++ p])⟩ = .ok d) ∧
    (∀ ops : List BuildOp, (∀ op ∈ ops, ∃ cfg, op = .defineArt cfg) →
      runOps ⟨[], []⟩ ops = ⟨[], []⟩) :=
  defineArtifact_no_side_effects _ _ (by decide) (by decide) rfl

/-- Claim C8: the Mount Resolver converts every raw fetch directive into an
ordinary Artifact Descriptor node with zero dependencies — no mounts, no file
dependencies, no mount-derived children, no emitted prerequisites — whose
synthesized archive name is derived from the directive's own identity, before
the Graph Compiler sees it; compiling such a node alone yields the one-node
document, so the compiled graph has only one node kind. -/
theorem resolveDirective_zero_dep (d : Directive) (g : Graph) :
    (resolveDirective d).mounts = [] ∧
    (resolveDirective d).deps = [] ∧
    specChildren (resolveDirective d) = [] ∧
    (directiveEntry d).1 = d.synthName ∧
    (emitNode d.synthName (resolveDirective d)).prereqs = [] ∧
    compile (directiveEntry d :: g) [d.synthName] = .ok [d.synthName] := by
  refine ⟨rfl, rfl, rfl, rfl, rfl, ?_⟩
  have hchild : childOf (directiveEntry d :: g) d.synthName = some [] := by
    show (lookupSpec ((d.synthName, resolveDirective d) :: g) d.synthName).map
      specChildren = some []
    rw [lookupSpec, if_pos rfl]
    rfl
  rw [compile]
  simp [visitList, hchild]

/-- Claim C9: a target built from a plain rule emits exactly the literal
dependency list as prerequisites and the literal command list as its recipe,
with no staging-directory creation, packaging or removal (no recipe line even
mentions the staging directory); `copyFromArchive`'s single command writes
directly to the archive-cache file path. -/
theorem plainRule_emits_literal :
    (∀ name, emitRule (copyFromArchive name) =
      { output := archiveFile ("archive-" ++ name),
        prereqs := ["_site/archive/" ++ name ++ ".tar"],
        recipe := ["cp -R _site/archive/" ++ name ++ ".tar "
          ++ archiveFile ("archive-" ++ name)] }) ∧
    emitRule nodeModulesRule =
      { output := "node_modules", prereqs := ["package.json"],
        recipe := ["npm install", "touch node_modules"] } ∧
    (∀ name, (emitRule (copyFromArchive name)).recipe.length = 1) ∧
    (∀ name, (emitRule (copyFromArchive name)).recipe =
      [("cp -R _site/archive/" ++ name ++ ".tar ") ++ archiveFile ("archive-" ++ name)]) ∧
    (∀ cmd ∈ (emitRule (copyFromArchive "spec-old")).recipe,
      containsStrB cmd (stagingDir "archive-spec-old") = false) ∧
    (∀ cmd ∈ (emitRule nodeModulesRule).recipe,
      containsStrB cmd (stagingDir "node_modules") = false) := by
  refine ⟨fun name => rfl, rfl, fun name => rfl, ?_, by decide, by decide⟩
  intro name
  show ["cp -R _site/archive/" ++ name ++ ".tar " ++ archiveFile ("archive-" ++ name)] = _
  rw [String.append_assoc, String.append_assoc]

/-- Claim C10: the phony `deploy` task's recipe removes and recreates `dist`,
extracts `.cache/site.tar` — the output path of the `site` artifact, not of
the `site-inject` artifact registered as the last rule — into it, and then
pushes; the task declares no prerequisite, and no recipe line mentions the
injected variant's output path. -/
theorem deploy_task_extracts_site :
    configureMakefile.tasks = [("deploy", deployCommands), ("clean", "rm -rf build/*")] ∧
    taskLines deployCommands =
      ["rm -rf dist", "mkdir -p dist",
        "tar xf " ++ archiveFile siteArchive ++ " -C dist",
        bin ++ "/divshot push production"] ∧
    (emitTask ("deploy", deployCommands)).prereqs = [] ∧
    configureMakefile.rules.getLast? = some (.artifact (injectArchive siteArchive)) ∧
    injectArchive siteArchive = "site-inject" ∧
    archiveFile siteArchive ≠ archiveFile (injectArchive siteArchive) ∧
    ∀ line ∈ taskLines deployCommands,
      containsStrB line (archiveFile (injectArchive siteArchive)) = false := by
  refine ⟨rfl, by decide, rfl, rfl, rfl, by decide, by decide⟩

end Teleport
